import Mathlib

/-!
Shallow embedding of the `kv` versioned key-value store (src/db.rs, src/scope.rs).

The persistent store is modelled as a list of rows of the `entries` table, in
insertion order (`INSERT` appends at the end).  Timestamps (RFC3339 strings
compared chronologically in the source) are modelled as integers; byte blobs
as lists of naturals; the SQL `NULL` of an optional column as `Option`.
Each database method of `Database` becomes a pure function on the store,
taking the current time (`Utc::now()`) and, for inserts, the fresh
autoincrement id as explicit arguments.
-/

namespace Kv

/-- One row of the `entries` table (struct `Entry` in src/db.rs). -/
structure Row where
  id : Int
  key : String
  value : List Nat
  version : Int
  content_type : Option String
  original_filename : Option String
  size_bytes : Int
  created_at : Int
  deleted_at : Option Int
  scope : Option String
  expires_at : Option Int
deriving DecidableEq, Repr

/-- The persisted `entries` table, in insertion (rowid) order. -/
abbrev Store := List Row

/-- The error variants of `KvError` (src/error.rs) that the embedded
database operations can produce. -/
inductive KvError where
  | KeyNotFound : String → KvError
  | VersionNotFound : String → Int → KvError
deriving DecidableEq, Repr

/-- Row r belongs to the (key, scope) series.  The source issues two SQL
variants (`scope = ?` when a scope is given, `scope IS NULL` otherwise);
both collapse to equality on the optional scope. -/
def rowMatches (k : String) (s : Option String) (r : Row) : Bool :=
  r.key == k && r.scope == s

/-- All rows of the (key, scope) series, deleted and expired ones included. -/
def seriesRows (st : Store) (k : String) (s : Option String) : List Row :=
  st.filter (rowMatches k s)

/-- Live (not soft-deleted) rows of the (key, scope) series. -/
def liveSeriesRows (st : Store) (k : String) (s : Option String) : List Row :=
  st.filter (fun r => rowMatches k s r && r.deleted_at == none)

/-- Sort key used by `ORDER BY version DESC`. -/
def versionDesc (a b : Row) : Prop := b.version ≤ a.version

instance : DecidableRel versionDesc := fun a b => Int.decLe b.version a.version

instance : IsTotal Row versionDesc := ⟨fun a b => le_total b.version a.version⟩

instance : IsTrans Row versionDesc := ⟨fun _ _ _ h h2 => le_trans h2 h⟩

/-- The `ORDER BY version DESC` of the SQL queries, as a sort. -/
def sortByVersionDesc (l : List Row) : List Row := List.insertionSort versionDesc l

/-- `Database::get_latest`: the live row of (key, scope) with the greatest
version (`ORDER BY version DESC LIMIT 1`), if any. -/
def get_latest (st : Store) (k : String) (s : Option String) : Option Row :=
  (sortByVersionDesc (liveSeriesRows st k s)).head?

/-- SQL aggregate `MAX(...)` over a column: `NULL` (none) on an empty set. -/
def sqlMax : List Int → Option Int
  | [] => none
  | v :: vs =>
    match sqlMax vs with
    | none => some v
    | some m => some (max v m)

/-- `Database::next_version`: `MAX(version)` over every row of the series
(soft-deleted and expired rows included), defaulting to 0, plus 1. -/
def next_version (st : Store) (k : String) (s : Option String) : Int :=
  (sqlMax ((seriesRows st k s).map Row.version)).getD 0 + 1

/-- The row inserted by `Database::set`: fresh autoincrement id, the given
payload and metadata, `size_bytes` the payload length, created now,
not deleted. -/
def newRow (k : String) (v : List Nat) (ct fn : Option String) (s : Option String)
    (exp : Option Int) (now : Int) (newId : Int) (ver : Int) : Row :=
  { id := newId, key := k, value := v, version := ver, content_type := ct,
    original_filename := fn, size_bytes := (v.length : Int), created_at := now,
    deleted_at := none, scope := s, expires_at := exp }

/-- `Database::set`: skip the write when the live latest entry holds
byte-identical value (returning its version and `false`); otherwise insert
a row with the next version and return `(next_version, true)`. -/
def set (st : Store) (k : String) (v : List Nat) (ct fn : Option String)
    (s : Option String) (exp : Option Int) (now : Int) (newId : Int) :
    Store × Int × Bool :=
  match get_latest st k s with
  | some e =>
    if e.value = v then (st, e.version, false)
    else (st ++ [newRow k v ct fn s exp now newId (next_version st k s)],
          next_version st k s, true)
  | none => (st ++ [newRow k v ct fn s exp now newId (next_version st k s)],
             next_version st k s, true)

/-- Does `set` take its dedup early return?  True exactly when a live latest
entry exists and its value equals the new value. -/
def skipsWrite (st : Store) (k : String) (s : Option String) (v : List Nat) : Bool :=
  match get_latest st k s with
  | some e => e.value == v
  | none => false

/-- `Database::get_version`: the row with the exact (key, version, scope),
regardless of its deleted or expired markers. -/
def get_version (st : Store) (k : String) (ver : Int) (s : Option String) : Option Row :=
  (st.filter (fun r => rowMatches k s r && r.version == ver)).head?

/-- The fetch step of `Database::get`: by explicit version when one is
given, else the latest live row. -/
def resolveEntry (st : Store) (k : String) (ver : Option Int) (s : Option String) :
    Option Row :=
  match ver with
  | some v => get_version st k v s
  | none => get_latest st k s

/-- `Database::get`: fetch, then mask the result as `KeyNotFound` when its
`expires_at` is set and strictly before now; a missing row is
`VersionNotFound` when a version was requested, else `KeyNotFound`. -/
def get (st : Store) (k : String) (ver : Option Int) (s : Option String) (now : Int) :
    Except KvError Row :=
  match resolveEntry st k ver s with
  | some e =>
    match e.expires_at with
    | some t => if t < now then .error (.KeyNotFound k) else .ok e
    | none => .ok e
  | none =>
    match ver with
    | some v => .error (.VersionNotFound k v)
    | none => .error (.KeyNotFound k)

/-- The row update performed by a soft delete: rows of the series that are
currently live get `deleted_at = now`; every other row is untouched
(`UPDATE ... SET deleted_at = ?1 WHERE key/scope match AND deleted_at IS NULL`). -/
def softMark (k : String) (s : Option String) (now : Int) (r : Row) : Row :=
  if rowMatches k s r && r.deleted_at == none then { r with deleted_at := some now } else r

/-- Store after `Database::delete(key, hard = false, scope)`. -/
def softDeleteStore (st : Store) (k : String) (s : Option String) (now : Int) : Store :=
  st.map (softMark k s now)

/-- Store after `Database::delete(key, hard = true, scope)`: every row of the
series is physically removed. -/
def hardDeleteStore (st : Store) (k : String) (s : Option String) : Store :=
  st.filter (fun r => !(rowMatches k s r))

/-- The existence pre-check of `Database::delete`: is some live row of the
series present? -/
def existsLive (st : Store) (k : String) (s : Option String) : Bool :=
  st.any (fun r => rowMatches k s r && r.deleted_at == none)

/-- `Database::delete`: KeyNotFound when no live row exists; otherwise a hard
delete removes all rows of the series (reporting how many), and a soft delete
stamps `deleted_at = now` on the live ones (reporting how many). -/
def deleteKey (st : Store) (k : String) (hard : Bool) (s : Option String) (now : Int) :
    Except KvError (Store × Nat) :=
  if existsLive st k s then
    if hard then .ok (hardDeleteStore st k s, (seriesRows st k s).length)
    else .ok (softDeleteStore st k s now, (liveSeriesRows st k s).length)
  else .error (.KeyNotFound k)

/-- The SQL `LIMIT` clause: absent = whole list. -/
def takeOpt (limit : Option Nat) (l : List Row) : List Row :=
  match limit with
  | none => l
  | some n => l.take n

/-- `Database::list_key_history`: every row of the series (deleted and
expired included), version descending, truncated by the limit; KeyNotFound
when the result is empty. -/
def list_key_history (st : Store) (k : String) (limit : Option Nat) (s : Option String) :
    Except KvError (List Row) :=
  let entries := takeOpt limit (sortByVersionDesc (seriesRows st k s))
  if entries.isEmpty then .error (.KeyNotFound k) else .ok entries

/-- The visibility filter of `list_keys` and `stats`:
`deleted_at IS NULL AND (expires_at IS NULL OR expires_at > now)`. -/
def notExpired (now : Int) (r : Row) : Bool :=
  match r.expires_at with
  | none => true
  | some t => decide (now < t)

def rowVisible (now : Int) (r : Row) : Bool :=
  r.deleted_at == none && notExpired now r

def visibleRows (st : Store) (now : Int) : List Row :=
  st.filter (rowVisible now)

/-- Per-key summary row returned by `list_keys` (struct `KeySummary`). -/
structure KeySummary where
  key : String
  versions : Nat
  total_size : Int
  last_updated : Int
  scope : Option String
deriving DecidableEq, Repr

/-- The rows of one `GROUP BY key, scope` group. -/
def groupRows (l : List Row) (p : String × Option String) : List Row :=
  l.filter (fun r => r.key == p.1 && r.scope == p.2)

/-- The distinct (key, scope) group identities, in first-appearance order. -/
def groupPairs (l : List Row) : List (String × Option String) :=
  (l.map (fun r => (r.key, r.scope))).dedup

/-- One output row of `list_keys`: `COUNT(*)`, `SUM(size_bytes)`,
`MAX(created_at)` over the group. -/
def summaryFor (l : List Row) (p : String × Option String) : KeySummary :=
  { key := p.1, versions := (groupRows l p).length,
    total_size := ((groupRows l p).map Row.size_bytes).sum,
    last_updated := (sqlMax ((groupRows l p).map Row.created_at)).getD 0,
    scope := p.2 }

/-- Sort key used by `ORDER BY last_updated DESC`. -/
def updatedDesc (a b : KeySummary) : Prop := b.last_updated ≤ a.last_updated

instance : DecidableRel updatedDesc := fun a b => Int.decLe b.last_updated a.last_updated

instance : IsTotal KeySummary updatedDesc := ⟨fun a b => le_total b.last_updated a.last_updated⟩

instance : IsTrans KeySummary updatedDesc := ⟨fun _ _ _ h h2 => le_trans h2 h⟩

def sortByUpdatedDesc (l : List KeySummary) : List KeySummary :=
  List.insertionSort updatedDesc l

def takeOptS (limit : Option Nat) (l : List KeySummary) : List KeySummary :=
  match limit with
  | none => l
  | some n => l.take n

/-- `Database::list_keys` with `all = true`: live, non-expired rows grouped
by (key, scope), ordered by last update descending, truncated by the limit. -/
def list_keys_all (st : Store) (now : Int) (limit : Option Nat) : List KeySummary :=
  takeOptS limit (sortByUpdatedDesc
    ((groupPairs (visibleRows st now)).map (summaryFor (visibleRows st now))))

/-- `Database::list_keys` with `all = false`: live, non-expired rows of the
one requested scope (explicit, or the global `NULL` scope), grouped by key. -/
def list_keys_scoped (st : Store) (now : Int) (limit : Option Nat) (s : Option String) :
    List KeySummary :=
  takeOptS limit (sortByUpdatedDesc
    ((((visibleRows st now).filter (fun r => r.scope == s)).map Row.key).dedup.map
      (fun k => summaryFor ((visibleRows st now).filter (fun r => r.scope == s)) (k, s))))

/-- The active-keys figure of `Database::stats`:
`COUNT(DISTINCT key || COALESCE(scope, ''))` over live, non-expired rows. -/
def activeKeys (st : Store) (now : Int) : Nat :=
  ((visibleRows st now).map (fun r => r.key ++ r.scope.getD "")).dedup.length

/-! The garbage collector (`Database::gc`).  The four sweeps run in sequence
over a shared accumulator of (ids to delete, total bytes); the expired sweep
pushes unconditionally, the other three skip ids already collected. -/

/-- `expires_at IS NOT NULL AND expires_at <= now`. -/
def isExpiredRow (now : Int) (r : Row) : Bool :=
  match r.expires_at with
  | none => false
  | some t => decide (t ≤ now)

/-- `deleted_at IS NOT NULL`. -/
def isDeletedRow (r : Row) : Bool := !(r.deleted_at == none)

/-- The expired sweep's loop: push every id with its size, no dedup check. -/
def pushAll (acc : List Int × Int) (l : List Row) : List Int × Int :=
  l.foldl (fun a r => (a.1 ++ [r.id], a.2 + r.size_bytes)) acc

/-- The loop of the deleted and age sweeps: push an id with its size unless
it was already collected. -/
def pushNewList (acc : List Int × Int) (l : List Row) : List Int × Int :=
  l.foldl (fun a r => if r.id ∈ a.1 then a else (a.1 ++ [r.id], a.2 + r.size_bytes)) acc

/-- The keep-versions inner loop: enumerate the version-descending rows of
one (key, scope) pair and collect every row at index ≥ keep. -/
def keepScan (keep : Nat) : Nat → List Int × Int → List Row → List Int × Int
  | _, acc, [] => acc
  | i, acc, r :: rs =>
    keepScan keep (i + 1)
      (if keep ≤ i ∧ r.id ∉ acc.1 then (acc.1 ++ [r.id], acc.2 + r.size_bytes) else acc) rs

/-- Rust's `k as usize` on an i64 value: wrap modulo 2^64. -/
def i64ToUsize (k : Int) : Nat := (k % (2 : Int) ^ 64).toNat

/-- `SELECT DISTINCT key, scope FROM entries`. -/
def distinctKeyScopes (st : Store) : List (String × Option String) :=
  (st.map (fun r => (r.key, r.scope))).dedup

/-- Accumulator after the expired sweep, which runs unless exactly
`deletedOnly` is requested. -/
def gcAcc1 (st : Store) (now : Int) (expiredOnly deletedOnly : Bool) : List Int × Int :=
  if expiredOnly || (!deletedOnly && !expiredOnly) then
    pushAll ([], 0) (st.filter (isExpiredRow now))
  else ([], 0)

/-- Accumulator after the deleted sweep, which runs unless exactly
`expiredOnly` is requested. -/
def gcAcc2 (st : Store) (now : Int) (expiredOnly deletedOnly : Bool) : List Int × Int :=
  if deletedOnly || (!deletedOnly && !expiredOnly) then
    pushNewList (gcAcc1 st now expiredOnly deletedOnly) (st.filter isDeletedRow)
  else gcAcc1 st now expiredOnly deletedOnly

/-- Accumulator after the older-than-days sweep
(`created_at < now - days`). -/
def gcAcc3 (st : Store) (now : Int) (olderThanDays : Option Nat)
    (expiredOnly deletedOnly : Bool) : List Int × Int :=
  match olderThanDays with
  | some d =>
    pushNewList (gcAcc2 st now expiredOnly deletedOnly)
      (st.filter (fun r => decide (r.created_at < now - (d : Int) * 86400)))
  | none => gcAcc2 st now expiredOnly deletedOnly

/-- The candidate set of `Database::gc`: ids to delete and total bytes, after
the four sweeps (expired, deleted, older-than, keep-versions). -/
def gcCandidates (st : Store) (now : Int) (olderThanDays : Option Nat)
    (keepVersions : Option Int) (expiredOnly deletedOnly : Bool) : List Int × Int :=
  match keepVersions with
  | some keep =>
    (distinctKeyScopes st).foldl
      (fun a p => keepScan (i64ToUsize keep) 0 a (sortByVersionDesc (seriesRows st p.1 p.2)))
      (gcAcc3 st now olderThanDays expiredOnly deletedOnly)
  | none => gcAcc3 st now olderThanDays expiredOnly deletedOnly

/-- The deletion loop of `gc`: one `DELETE FROM entries WHERE id = ?` per
collected id. -/
def gcDeleteLoop (st : Store) (ids : List Int) : Store :=
  ids.foldl (fun s i => s.filter (fun r => !(r.id == i))) st

/-- Result record of `gc` (struct `GcResult`). -/
structure GcResult where
  entries_count : Nat
  bytes_freed : Int
  was_run : Bool
deriving DecidableEq, Repr

/-- `Database::gc`: compute the candidate set, delete it only when `run` is
set (and something was collected), report count, bytes and the run flag. -/
def gc (st : Store) (now : Int) (run : Bool) (olderThanDays : Option Nat)
    (keepVersions : Option Int) (expiredOnly deletedOnly : Bool) : Store × GcResult :=
  let c := gcCandidates st now olderThanDays keepVersions expiredOnly deletedOnly
  (if run && !c.1.isEmpty then gcDeleteLoop st c.1 else st,
   { entries_count := c.1.length, bytes_freed := c.2, was_run := run })

/-- The sum of `size_bytes` over the rows whose id was collected. -/
def bytesOf (st : Store) (ids : List Int) : Int :=
  ((st.filter (fun r => decide (r.id ∈ ids))).map Row.size_bytes).sum

/-- A row matches the union of the active gc filters: the enabled expired
sweep, the enabled deleted sweep, the age cutoff, or falling beyond the first
`keep` version-descending rows of its own (key, scope) series. -/
def gcMatches (st : Store) (now : Int) (olderThanDays : Option Nat)
    (keepVersions : Option Int) (expiredOnly deletedOnly : Bool) (r : Row) : Prop :=
  ((expiredOnly || (!deletedOnly && !expiredOnly)) = true ∧ isExpiredRow now r = true) ∨
  ((deletedOnly || (!deletedOnly && !expiredOnly)) = true ∧ isDeletedRow r = true) ∨
  (∃ d, olderThanDays = some d ∧ r.created_at < now - (d : Int) * 86400) ∨
  (∃ kp, keepVersions = some kp ∧
    r ∈ (sortByVersionDesc (seriesRows st r.key r.scope)).drop (i64ToUsize kp))

/-- How many rows of the list hold a strictly greater version than r: the
rank of r in the version-descending order. -/
def countLarger (l : List Row) (r : Row) : Nat :=
  (l.filter (fun x => decide (r.version < x.version))).length

/-- Concrete live rows of key "k", versions 1, 2, 3, for gc witnesses. -/
def rowK1 : Row :=
  { id := 1, key := "k", value := [0], version := 1, content_type := none,
    original_filename := none, size_bytes := 1, created_at := 0, deleted_at := none,
    scope := none, expires_at := none }

def rowK2 : Row :=
  { id := 2, key := "k", value := [1], version := 2, content_type := none,
    original_filename := none, size_bytes := 1, created_at := 0, deleted_at := none,
    scope := none, expires_at := none }

def rowK3 : Row :=
  { id := 3, key := "k", value := [2], version := 3, content_type := none,
    original_filename := none, size_bytes := 1, created_at := 0, deleted_at := none,
    scope := none, expires_at := none }

/-- Concrete soft-deleted row: key "k", version 2, deleted at 5. -/
def rowK2del : Row :=
  { id := 2, key := "k", value := [1], version := 2, content_type := none,
    original_filename := none, size_bytes := 4, created_at := 0, deleted_at := some 5,
    scope := none, expires_at := none }

/-- Concrete row that is both expired (at 5) and soft-deleted (at 4). -/
def rowED : Row :=
  { id := 1, key := "k", value := [0], version := 1, content_type := none,
    original_filename := none, size_bytes := 3, created_at := 0, deleted_at := some 4,
    scope := none, expires_at := some 5 }

/-- Concrete one-row store used by witnesses: key "a", value [1], version 1. -/
def rowA1 : Row := newRow "a" [1] none none none none 0 1 1

/-- Concrete row used for expiry theorems: key "k", version 1, expires at 100. -/
def rowExp : Row :=
  { id := 1, key := "k", value := [0], version := 1, content_type := none,
    original_filename := none, size_bytes := 1, created_at := 0, deleted_at := none,
    scope := none, expires_at := some 100 }

/-- Concrete live row with key "ab" in the global scope. -/
def rowAB : Row :=
  { id := 1, key := "ab", value := [0], version := 1, content_type := none,
    original_filename := none, size_bytes := 1, created_at := 0, deleted_at := none,
    scope := none, expires_at := none }

/-- Concrete live row with key "a" in scope "b". -/
def rowAscopeB : Row :=
  { id := 2, key := "a", value := [0], version := 1, content_type := none,
    original_filename := none, size_bytes := 1, created_at := 0, deleted_at := none,
    scope := some "b", expires_at := none }

/-! The scope deriver (src/scope.rs).  `hash_path` canonicalizes the path,
falls back to the path itself when canonicalization fails, hashes the
resulting byte string with SHA-256 (the `sha2` crate, FIPS 180-4) and hex
encodes the first 6 digest bytes.  Paths are modelled as their byte strings
(`List Nat`) and filesystem canonicalization as an oracle
`List Nat → Option (List Nat)`. -/

/-- Truncation to a 32-bit word. -/
def w32 (n : Nat) : Nat := n % 4294967296

/-- 32-bit right rotation. -/
def rotr (n x : Nat) : Nat := w32 ((x >>> n) ||| (x <<< (32 - n)))

/-- Bitwise complement within 32 bits. -/
def wnot (x : Nat) : Nat := x ^^^ 4294967295

def ch (x y z : Nat) : Nat := (x &&& y) ^^^ (wnot x &&& z)

def maj (x y z : Nat) : Nat := (x &&& y) ^^^ (x &&& z) ^^^ (y &&& z)

def bigSigma0 (x : Nat) : Nat := rotr 2 x ^^^ rotr 13 x ^^^ rotr 22 x

def bigSigma1 (x : Nat) : Nat := rotr 6 x ^^^ rotr 11 x ^^^ rotr 25 x

def smallSigma0 (x : Nat) : Nat := rotr 7 x ^^^ rotr 18 x ^^^ (x >>> 3)

def smallSigma1 (x : Nat) : Nat := rotr 17 x ^^^ rotr 19 x ^^^ (x >>> 10)

/-- The 64 SHA-256 round constants (written in decimal). -/
def roundConstants : List Nat :=
  [1116352408, 1899447441, 3049323471, 3921009573, 961987163,
   1508970993, 2453635748, 2870763221, 3624381080, 310598401,
   607225278, 1426881987, 1925078388, 2162078206, 2614888103,
   3248222580, 3835390401, 4022224774, 264347078, 604807628,
   770255983, 1249150122, 1555081692, 1996064986, 2554220882,
   2821834349, 2952996808, 3210313671, 3336571891, 3584528711,
   113926993, 338241895, 666307205, 773529912, 1294757372,
   1396182291, 1695183700, 1986661051, 2177026350, 2456956037,
   2730485921, 2820302411, 3259730800, 3345764771, 3516065817,
   3600352804, 4094571909, 275423344, 430227734, 506948616,
   659060556, 883997877, 958139571, 1322822218, 1537002063,
   1747873779, 1955562222, 2024104815, 2227730452, 2361852424,
   2428436474, 2756734187, 3204031479, 3329325298]

/-- The eight 32-bit working registers of the compression function. -/
structure Sha256State where
  a : Nat
  b : Nat
  c : Nat
  d : Nat
  e : Nat
  f : Nat
  g : Nat
  h : Nat
deriving DecidableEq, Repr

def sha256Init : Sha256State :=
  ⟨1779033703, 3144134277, 1013904242, 2773480762,
   1359893119, 2600822924, 528734635, 1541459225⟩

/-- The next word of the message schedule, from the last 16 words. -/
def nextScheduleWord (w : List Nat) : Nat :=
  w32 (smallSigma1 (w.getD (w.length - 2) 0) + w.getD (w.length - 7) 0 +
    smallSigma0 (w.getD (w.length - 15) 0) + w.getD (w.length - 16) 0)

/-- Extend the 16 block words by n schedule words. -/
def buildSchedule : Nat → List Nat → List Nat
  | 0, w => w
  | n + 1, w => buildSchedule n (w ++ [nextScheduleWord w])

/-- One SHA-256 round: p is the pair (schedule word, round constant). -/
def roundStep (s : Sha256State) (p : Nat × Nat) : Sha256State :=
  let t1 := w32 (s.h + bigSigma1 s.e + ch s.e s.f s.g + p.2 + p.1)
  let t2 := w32 (bigSigma0 s.a + maj s.a s.b s.c)
  ⟨w32 (t1 + t2), s.a, s.b, s.c, w32 (s.d + t1), s.e, s.f, s.g⟩

/-- The 16 big-endian 32-bit words of one 64-byte block. -/
def blockWords (b : List Nat) : List Nat :=
  (List.range 16).map (fun i =>
    b.getD (4 * i) 0 * 16777216 + b.getD (4 * i + 1) 0 * 65536 +
    b.getD (4 * i + 2) 0 * 256 + b.getD (4 * i + 3) 0)

/-- Compress one 64-byte block into the state. -/
def sha256Compress (s : Sha256State) (block : List Nat) : Sha256State :=
  let w := buildSchedule 48 (blockWords block)
  let t := (w.zip roundConstants).foldl roundStep s
  ⟨w32 (s.a + t.a), w32 (s.b + t.b), w32 (s.c + t.c), w32 (s.d + t.d),
   w32 (s.e + t.e), w32 (s.f + t.f), w32 (s.g + t.g), w32 (s.h + t.h)⟩

/-- SHA-256 padding: a 0x80 byte, zeros to 56 mod 64, and the bit length as
eight big-endian bytes. -/
def padMessage (msg : List Nat) : List Nat :=
  let bitLen := msg.length * 8
  msg ++ [128] ++ List.replicate ((119 - msg.length % 64) % 64) 0 ++
    [bitLen >>> 56 % 256, bitLen >>> 48 % 256, bitLen >>> 40 % 256, bitLen >>> 32 % 256,
     bitLen >>> 24 % 256, bitLen >>> 16 % 256, bitLen >>> 8 % 256, bitLen % 256]

/-- Split the padded message into 64-byte blocks. -/
def chunks64 : List Nat → List (List Nat)
  | [] => []
  | x :: xs => ((x :: xs).take 64) :: chunks64 ((x :: xs).drop 64)
termination_by l => l.length
decreasing_by
  simp [List.length_drop]
  omega

/-- The four big-endian bytes of a 32-bit word. -/
def wordBytes (x : Nat) : List Nat := [x >>> 24 % 256, x >>> 16 % 256, x >>> 8 % 256, x % 256]

/-- The digest bytes of a final state. -/
def stateWords (s : Sha256State) : List Nat := [s.a, s.b, s.c, s.d, s.e, s.f, s.g, s.h]

/-- SHA-256 of a byte string: 32 digest bytes. -/
def sha256 (msg : List Nat) : List Nat :=
  (stateWords ((chunks64 (padMessage msg)).foldl sha256Compress sha256Init)).flatMap wordBytes

/-- The lower-case hex alphabet of `scope::hex::HEX_CHARS`. -/
def HEX_CHARS : List Char := "0123456789abcdef".toList

/-- `HEX_CHARS[n]`; the callers only index with values below 16. -/
def hexChar (n : Nat) : Char := HEX_CHARS.getD n '0'

/-- `scope::hex::encode`: two hex digits per byte, high nibble first. -/
def hexEncode (bytes : List Nat) : String :=
  String.mk (bytes.flatMap (fun b => [hexChar (b >>> 4), hexChar (b &&& 15)]))

/-- `scope::hash_path`: canonicalize if possible (fall back to the path
as-is), hash the bytes, hex encode the first 6 digest bytes. -/
def hash_path (canon : List Nat → Option (List Nat)) (path : List Nat) : String :=
  hexEncode ((sha256 ((canon path).getD path)).take 6)

/-! Lemmas about the SQL `MAX` aggregate. -/

theorem sqlMax_append_singleton (l : List Int) (x : Int) :
    sqlMax (l ++ [x]) = some ((sqlMax l).elim x (fun m => max m x)) := by
  induction l with
  | nil => rfl
  | cons v t ih =>
    show (match sqlMax (t ++ [x]) with
          | none => some v
          | some m => some (max v m)) = _
    rw [ih]
    cases hm : sqlMax t with
    | none => simp [sqlMax, hm]
    | some m => simp [sqlMax, hm, max_assoc]

theorem next_version_append (st : Store) (k : String) (s : Option String) (r : Row)
    (hm : rowMatches k s r = true) (hv : r.version = next_version st k s) :
    next_version (st ++ [r]) k s = next_version st k s + 1 := by
  unfold next_version seriesRows at *
  rw [List.filter_append]
  simp only [List.filter_cons, List.filter_nil, hm, if_true, List.map_append, List.map_cons,
    List.map_nil]
  rw [sqlMax_append_singleton]
  cases hsm : sqlMax (List.map Row.version (List.filter (rowMatches k s) st)) with
  | none =>
    simp only [hsm, Option.elim_none, Option.getD_none, Option.getD_some] at hv ⊢
    omega
  | some m =>
    simp only [hsm, Option.elim_some, Option.getD_some] at hv ⊢
    rw [hv]
    omega

theorem rowMatches_newRow (k : String) (s : Option String) (v : List Nat)
    (ct fn : Option String) (exp : Option Int) (now newId ver : Int) :
    rowMatches k s (newRow k v ct fn s exp now newId ver) = true := by
  simp [rowMatches, newRow]

/-- When the dedup early return is not taken, `set` produces the insert
result (appended row, next version, written = true). -/
theorem set_insert_of_not_skips (st : Store) (k : String) (v : List Nat)
    (ct fn : Option String) (s : Option String) (exp : Option Int) (now newId : Int)
    (h : skipsWrite st k s v = false) :
    set st k v ct fn s exp now newId =
      (st ++ [newRow k v ct fn s exp now newId (next_version st k s)],
       next_version st k s, true) := by
  unfold set
  cases hgl : get_latest st k s with
  | none => rfl
  | some e =>
    have hne : ¬ e.value = v := by
      intro hev
      rw [skipsWrite, hgl] at h
      simp [hev] at h
    simp [hne]

/-! Lemmas about the scope deriver. -/

theorem hexChar_mem (n : Nat) : hexChar n ∈ HEX_CHARS := by
  unfold hexChar
  by_cases h : n < HEX_CHARS.length
  · rw [List.getD_eq_getElem HEX_CHARS '0' h]
    exact List.getElem_mem h
  · rw [List.getD_eq_default HEX_CHARS '0' (le_of_not_lt h)]
    decide

theorem hexEncode_length (bytes : List Nat) :
    (hexEncode bytes).length = 2 * bytes.length := by
  show (bytes.flatMap (fun b => [hexChar (b >>> 4), hexChar (b &&& 15)])).length = _
  induction bytes with
  | nil => rfl
  | cons a t ih =>
    rw [List.flatMap_cons, List.length_append, ih]
    simp only [List.length_cons, List.length_nil, List.length_cons]
    omega

theorem mem_hexEncode (bytes : List Nat) (c : Char) (hc : c ∈ (hexEncode bytes).data) :
    c ∈ HEX_CHARS := by
  obtain ⟨b, hb, hcb⟩ := List.mem_flatMap.1 hc
  rcases List.mem_cons.1 hcb with rfl | hcb2
  · exact hexChar_mem _
  · rcases List.mem_cons.1 hcb2 with rfl | hcb3
    · exact hexChar_mem _
    · cases hcb3

theorem sha256_length (msg : List Nat) : (sha256 msg).length = 32 := by
  unfold sha256 stateWords
  simp [wordBytes]

/-! Lemmas about soft and hard deletion. -/

theorem band_true_left {a b : Bool} (h : (a && b) = true) : a = true := by
  cases a with
  | true => rfl
  | false => exact Bool.noConfusion h

theorem rowMatches_iff (k : String) (s : Option String) (r : Row) :
    rowMatches k s r = true ↔ r.key = k ∧ r.scope = s := by
  simp [rowMatches]

theorem rowMatches_softMark (k2 : String) (s2 : Option String) (k : String)
    (s : Option String) (now : Int) (r : Row) :
    rowMatches k2 s2 (softMark k s now r) = rowMatches k2 s2 r := by
  unfold softMark
  split <;> simp [rowMatches]

theorem softMark_version (k : String) (s : Option String) (now : Int) (r : Row) :
    (softMark k s now r).version = r.version := by
  unfold softMark
  split <;> rfl

theorem seriesRows_softDeleteStore (st : Store) (k : String) (s : Option String)
    (now : Int) :
    seriesRows (softDeleteStore st k s now) k s =
      (seriesRows st k s).map (softMark k s now) := by
  unfold seriesRows softDeleteStore
  rw [List.filter_map]
  have hfun : (rowMatches k s ∘ softMark k s now) = rowMatches k s :=
    funext (fun r => rowMatches_softMark k s k s now r)
  rw [hfun]

theorem orderedInsert_map_versionEq (f : Row → Row) (hf : ∀ r, (f r).version = r.version)
    (a : Row) (l : List Row) :
    List.orderedInsert versionDesc (f a) (l.map f) =
      (List.orderedInsert versionDesc a l).map f := by
  induction l with
  | nil => rfl
  | cons b t ih =>
    simp only [List.map_cons, List.orderedInsert]
    have hiff : versionDesc (f a) (f b) ↔ versionDesc a b := by
      unfold versionDesc
      rw [hf, hf]
    by_cases h : versionDesc a b
    · rw [if_pos (hiff.2 h), if_pos h]
      simp
    · rw [if_neg (fun hc => h (hiff.1 hc)), if_neg h, List.map_cons, ih]

theorem sortByVersionDesc_map (f : Row → Row) (hf : ∀ r, (f r).version = r.version)
    (l : List Row) :
    sortByVersionDesc (l.map f) = (sortByVersionDesc l).map f := by
  unfold sortByVersionDesc
  induction l with
  | nil => rfl
  | cons a t ih =>
    simp only [List.map_cons, List.insertionSort]
    rw [ih, orderedInsert_map_versionEq f hf]

theorem liveSeriesRows_softDeleteStore (st : Store) (k : String) (s : Option String)
    (now : Int) :
    liveSeriesRows (softDeleteStore st k s now) k s = [] := by
  unfold liveSeriesRows softDeleteStore
  rw [List.filter_eq_nil_iff]
  intro r hr
  obtain ⟨r0, _, rfl⟩ := List.mem_map.1 hr
  unfold softMark
  by_cases h : (rowMatches k s r0 && r0.deleted_at == none) = true
  · rw [if_pos h]
    simp
  · rw [if_neg h]
    exact h

theorem get_none_softDeleteStore (st : Store) (k : String) (s : Option String)
    (now now2 : Int) :
    get (softDeleteStore st k s now) k none s now2 = .error (.KeyNotFound k) := by
  have hlatest : get_latest (softDeleteStore st k s now) k s = none := by
    unfold get_latest
    rw [liveSeriesRows_softDeleteStore]
    rfl
  simp [get, resolveEntry, hlatest]

theorem visible_softDeleteStore_no_match (st : Store) (k : String) (s : Option String)
    (now now2 : Int) (r : Row) (hr : r ∈ visibleRows (softDeleteStore st k s now) now2) :
    rowMatches k s r = false := by
  unfold visibleRows softDeleteStore at hr
  have hvis := List.of_mem_filter hr
  obtain ⟨r0, _, rfl⟩ := List.mem_map.1 (List.mem_of_mem_filter hr)
  by_cases h : (rowMatches k s r0 && r0.deleted_at == none) = true
  · exfalso
    unfold rowVisible softMark at hvis
    rw [if_pos h] at hvis
    simp at hvis
  · have heq : softMark k s now r0 = r0 := by
      unfold softMark
      rw [if_neg h]
    rw [heq] at hvis ⊢
    unfold rowVisible at hvis
    have hlive := band_true_left hvis
    cases hm : rowMatches k s r0 with
    | false => rfl
    | true =>
      exact absurd (show (rowMatches k s r0 && (r0.deleted_at == none)) = true by
        rw [hm, hlive]; rfl) h

theorem mem_takeOptS (limit : Option Nat) (l : List KeySummary) (x : KeySummary)
    (h : x ∈ takeOptS limit l) : x ∈ l := by
  cases limit with
  | none => exact h
  | some n => exact List.mem_of_mem_take h

theorem mem_list_keys_all (st : Store) (now2 : Int) (limit : Option Nat)
    (x : KeySummary) (h : x ∈ list_keys_all st now2 limit) :
    ∃ r, r ∈ visibleRows st now2 ∧ r.key = x.key ∧ r.scope = x.scope := by
  unfold list_keys_all at h
  have h1 := mem_takeOptS _ _ _ h
  have h2 : x ∈ (groupPairs (visibleRows st now2)).map (summaryFor (visibleRows st now2)) :=
    (List.Perm.mem_iff (List.perm_insertionSort updatedDesc _)).1 h1
  obtain ⟨p, hp, rfl⟩ := List.mem_map.1 h2
  obtain ⟨r, hrv, hpr⟩ := List.mem_map.1 (List.mem_dedup.1 hp)
  refine ⟨r, hrv, ?_, ?_⟩ <;> (cases hpr; rfl)

theorem mem_list_keys_scoped (st : Store) (now2 : Int) (limit : Option Nat)
    (s : Option String) (x : KeySummary) (h : x ∈ list_keys_scoped st now2 limit s) :
    ∃ r, r ∈ visibleRows st now2 ∧ r.scope = s ∧ r.key = x.key := by
  unfold list_keys_scoped at h
  have h1 := mem_takeOptS _ _ _ h
  have h2 : x ∈ (((visibleRows st now2).filter (fun r => r.scope == s)).map Row.key).dedup.map
      (fun k => summaryFor ((visibleRows st now2).filter (fun r => r.scope == s)) (k, s)) :=
    (List.Perm.mem_iff (List.perm_insertionSort updatedDesc _)).1 h1
  obtain ⟨k0, hk0, rfl⟩ := List.mem_map.1 h2
  obtain ⟨r, hrm, hk⟩ := List.mem_map.1 (List.mem_dedup.1 hk0)
  have hscope : (r.scope == s) = true := (List.mem_filter.1 hrm).2
  exact ⟨r, (List.mem_filter.1 hrm).1, by simpa using hscope, hk⟩

theorem seriesRows_hardDeleteStore (st : Store) (k : String) (s : Option String) :
    seriesRows (hardDeleteStore st k s) k s = [] := by
  unfold seriesRows hardDeleteStore
  rw [List.filter_eq_nil_iff]
  intro r hr
  have h2 := List.of_mem_filter hr
  simp at h2 ⊢
  exact h2

theorem mem_hardDeleteStore_no_match (st : Store) (k : String) (s : Option String)
    (r : Row) (hr : r ∈ hardDeleteStore st k s) : rowMatches k s r = false := by
  have h2 := (List.mem_filter.1 hr).2
  simp at h2
  exact h2

theorem get_latest_hardDeleteStore (st : Store) (k : String) (s : Option String) :
    get_latest (hardDeleteStore st k s) k s = none := by
  unfold get_latest liveSeriesRows
  have : (hardDeleteStore st k s).filter (fun r => rowMatches k s r && r.deleted_at == none) = [] := by
    rw [List.filter_eq_nil_iff]
    intro r hr hc
    have hm := band_true_left hc
    rw [mem_hardDeleteStore_no_match st k s r hr] at hm
    exact Bool.noConfusion hm
  rw [this]
  rfl

theorem get_version_hardDeleteStore (st : Store) (k : String) (s : Option String) (v : Int) :
    get_version (hardDeleteStore st k s) k v s = none := by
  unfold get_version
  have : (hardDeleteStore st k s).filter (fun r => rowMatches k s r && r.version == v) = [] := by
    rw [List.filter_eq_nil_iff]
    intro r hr hc
    have hm := band_true_left hc
    rw [mem_hardDeleteStore_no_match st k s r hr] at hm
    exact Bool.noConfusion hm
  rw [this]
  rfl

theorem seriesRows_ne_nil_of_existsLive (st : Store) (k : String) (s : Option String)
    (h : existsLive st k s = true) : seriesRows st k s ≠ [] := by
  obtain ⟨r, hr, hcond⟩ := List.any_eq_true.1 h
  intro hnil
  have hmem : r ∈ seriesRows st k s :=
    List.mem_filter.2 ⟨hr, band_true_left hcond⟩
  rw [hnil] at hmem
  exact absurd hmem (List.not_mem_nil r)

theorem list_key_history_softDeleteStore (st : Store) (k : String) (s : Option String)
    (now : Int) (h : existsLive st k s = true) :
    list_key_history (softDeleteStore st k s now) k none s =
      .ok ((sortByVersionDesc (seriesRows st k s)).map (softMark k s now)) := by
  unfold list_key_history takeOpt
  rw [seriesRows_softDeleteStore, sortByVersionDesc_map _ (softMark_version k s now)]
  have hne : sortByVersionDesc (seriesRows st k s) ≠ [] := by
    intro hs
    apply seriesRows_ne_nil_of_existsLive st k s h
    have hperm := List.perm_insertionSort versionDesc (seriesRows st k s)
    rw [sortByVersionDesc] at hs
    rw [hs] at hperm
    exact hperm.symm.eq_nil
  simp [List.isEmpty_iff, hne]

theorem list_key_history_hardDeleteStore (st : Store) (k : String) (s : Option String) :
    list_key_history (hardDeleteStore st k s) k none s = .error (.KeyNotFound k) := by
  unfold list_key_history takeOpt
  rw [seriesRows_hardDeleteStore]
  rfl

/-! Lemmas about the garbage collector's candidate set. -/

theorem gcDeleteLoop_eq_filter (ids : List Int) (st : Store) :
    gcDeleteLoop st ids = st.filter (fun r => decide (r.id ∉ ids)) := by
  induction ids generalizing st with
  | nil =>
    simp [gcDeleteLoop]
  | cons i t ih =>
    simp only [gcDeleteLoop, List.foldl_cons] at ih ⊢
    rw [ih, List.filter_filter]
    apply List.filter_congr
    intro r _
    by_cases h1 : r.id = i <;> by_cases h2 : r.id ∈ t <;> simp [h1, h2]

theorem mem_append_single_iff {l : List Int} {a i : Int} :
    i ∈ l ++ [a] ↔ i ∈ l ∨ a = i := by
  rw [List.mem_append, List.mem_singleton, eq_comm]

theorem mem_pushAll (l : List Row) (acc : List Int × Int) (i : Int) :
    i ∈ (pushAll acc l).1 ↔ i ∈ acc.1 ∨ ∃ r ∈ l, r.id = i := by
  induction l generalizing acc with
  | nil => simp [pushAll]
  | cons r t ih =>
    simp only [pushAll, List.foldl_cons] at ih ⊢
    rw [ih, mem_append_single_iff]
    constructor
    · rintro ((h | h) | ⟨x, hx, hxi⟩)
      · exact Or.inl h
      · exact Or.inr ⟨r, List.mem_cons_self r t, h⟩
      · exact Or.inr ⟨x, List.mem_cons_of_mem r hx, hxi⟩
    · rintro (h | ⟨x, hx, hxi⟩)
      · exact Or.inl (Or.inl h)
      · rcases List.mem_cons.1 hx with rfl | hx2
        · exact Or.inl (Or.inr hxi)
        · exact Or.inr ⟨x, hx2, hxi⟩

theorem mem_pushNewList (l : List Row) (acc : List Int × Int) (i : Int) :
    i ∈ (pushNewList acc l).1 ↔ i ∈ acc.1 ∨ ∃ r ∈ l, r.id = i := by
  induction l generalizing acc with
  | nil => simp [pushNewList]
  | cons r t ih =>
    simp only [pushNewList, List.foldl_cons] at ih ⊢
    by_cases hmem : r.id ∈ acc.1
    · rw [if_pos hmem, ih]
      constructor
      · rintro (h | ⟨x, hx, hxi⟩)
        · exact Or.inl h
        · exact Or.inr ⟨x, List.mem_cons_of_mem r hx, hxi⟩
      · rintro (h | ⟨x, hx, hxi⟩)
        · exact Or.inl h
        · rcases List.mem_cons.1 hx with rfl | hx2
          · exact Or.inl (hxi ▸ hmem)
          · exact Or.inr ⟨x, hx2, hxi⟩
    · rw [if_neg hmem, ih, mem_append_single_iff]
      constructor
      · rintro ((h | h) | ⟨x, hx, hxi⟩)
        · exact Or.inl h
        · exact Or.inr ⟨r, List.mem_cons_self r t, h⟩
        · exact Or.inr ⟨x, List.mem_cons_of_mem r hx, hxi⟩
      · rintro (h | ⟨x, hx, hxi⟩)
        · exact Or.inl (Or.inl h)
        · rcases List.mem_cons.1 hx with rfl | hx2
          · exact Or.inl (Or.inr hxi)
          · exact Or.inr ⟨x, hx2, hxi⟩

theorem mem_keepScan (K : Nat) (rows : List Row) (j : Nat) (acc : List Int × Int)
    (i : Int) :
    i ∈ (keepScan K j acc rows).1 ↔
      i ∈ acc.1 ∨ ∃ r ∈ rows.drop (K - j), r.id = i := by
  induction rows generalizing j acc with
  | nil => simp [keepScan]
  | cons r t ih =>
    simp only [keepScan]
    by_cases hj : K ≤ j
    · have h0 : K - j = 0 := Nat.sub_eq_zero_of_le hj
      have h1 : K - (j + 1) = 0 := Nat.sub_eq_zero_of_le (le_trans hj (Nat.le_succ j))
      by_cases hmem : r.id ∈ acc.1
      · rw [if_neg (fun hc => hc.2 hmem), ih, h1, h0]
        simp only [List.drop_zero]
        constructor
        · rintro (h | ⟨x, hx, hxi⟩)
          · exact Or.inl h
          · exact Or.inr ⟨x, List.mem_cons_of_mem r hx, hxi⟩
        · rintro (h | ⟨x, hx, hxi⟩)
          · exact Or.inl h
          · rcases List.mem_cons.1 hx with rfl | hx2
            · exact Or.inl (hxi ▸ hmem)
            · exact Or.inr ⟨x, hx2, hxi⟩
      · rw [if_pos ⟨hj, hmem⟩, ih, h1, h0]
        simp only [List.drop_zero]
        rw [mem_append_single_iff]
        constructor
        · rintro ((h | h) | ⟨x, hx, hxi⟩)
          · exact Or.inl h
          · exact Or.inr ⟨r, List.mem_cons_self r t, h⟩
          · exact Or.inr ⟨x, List.mem_cons_of_mem r hx, hxi⟩
        · rintro (h | ⟨x, hx, hxi⟩)
          · exact Or.inl (Or.inl h)
          · rcases List.mem_cons.1 hx with rfl | hx2
            · exact Or.inl (Or.inr hxi)
            · exact Or.inr ⟨x, hx2, hxi⟩
    · rw [if_neg (fun hc => hj hc.1), ih]
      have hKj : K - j = (K - (j + 1)) + 1 := by omega
      rw [hKj, List.drop_succ_cons]

theorem mem_keepFold (K : Nat) (st : Store) (pairs : List (String × Option String))
    (acc : List Int × Int) (i : Int) :
    i ∈ (pairs.foldl
        (fun a p => keepScan K 0 a (sortByVersionDesc (seriesRows st p.1 p.2))) acc).1 ↔
      i ∈ acc.1 ∨ ∃ p ∈ pairs,
        ∃ r ∈ (sortByVersionDesc (seriesRows st p.1 p.2)).drop K, r.id = i := by
  induction pairs generalizing acc with
  | nil => simp
  | cons p t ih =>
    simp only [List.foldl_cons]
    rw [ih, mem_keepScan]
    simp only [Nat.sub_zero]
    constructor
    · rintro ((h | h) | ⟨q, hq, hr⟩)
      · exact Or.inl h
      · exact Or.inr ⟨p, List.mem_cons_self p t, h⟩
      · exact Or.inr ⟨q, List.mem_cons_of_mem p hq, hr⟩
    · rintro (h | ⟨q, hq, hr⟩)
      · exact Or.inl (Or.inl h)
      · rcases List.mem_cons.1 hq with rfl | hq2
        · exact Or.inl (Or.inr hr)
        · exact Or.inr ⟨q, hq2, hr⟩

theorem mem_gcAcc1 (st : Store) (now : Int) (e d : Bool) (i : Int) :
    i ∈ (gcAcc1 st now e d).1 ↔
      ((e || (!d && !e)) = true ∧ ∃ r ∈ st, isExpiredRow now r = true ∧ r.id = i) := by
  unfold gcAcc1
  by_cases hf : (e || (!d && !e)) = true
  · rw [if_pos hf, mem_pushAll]
    simp only [List.not_mem_nil, false_or]
    constructor
    · rintro ⟨r, hr, hid⟩
      exact ⟨hf, r, (List.mem_filter.1 hr).1, (List.mem_filter.1 hr).2, hid⟩
    · rintro ⟨-, r, hr, hexp, hid⟩
      exact ⟨r, List.mem_filter.2 ⟨hr, hexp⟩, hid⟩
  · rw [if_neg hf]
    simp [hf]

theorem mem_gcAcc2 (st : Store) (now : Int) (e d : Bool) (i : Int) :
    i ∈ (gcAcc2 st now e d).1 ↔
      (i ∈ (gcAcc1 st now e d).1 ∨
       ((d || (!d && !e)) = true ∧ ∃ r ∈ st, isDeletedRow r = true ∧ r.id = i)) := by
  unfold gcAcc2
  by_cases hf : (d || (!d && !e)) = true
  · rw [if_pos hf, mem_pushNewList]
    constructor
    · rintro (h | ⟨r, hr, hid⟩)
      · exact Or.inl h
      · exact Or.inr ⟨hf, r, (List.mem_filter.1 hr).1, (List.mem_filter.1 hr).2, hid⟩
    · rintro (h | ⟨-, r, hr, hdel, hid⟩)
      · exact Or.inl h
      · exact Or.inr ⟨r, List.mem_filter.2 ⟨hr, hdel⟩, hid⟩
  · rw [if_neg hf]
    simp [hf]

theorem mem_gcAcc3 (st : Store) (now : Int) (o : Option Nat) (e d : Bool) (i : Int) :
    i ∈ (gcAcc3 st now o e d).1 ↔
      (i ∈ (gcAcc2 st now e d).1 ∨
       ∃ dd, o = some dd ∧ ∃ r ∈ st, r.created_at < now - (dd : Int) * 86400 ∧ r.id = i) := by
  cases o with
  | none =>
    unfold gcAcc3
    simp
  | some dd =>
    show i ∈ (pushNewList (gcAcc2 st now e d) _).1 ↔ _
    rw [mem_pushNewList]
    constructor
    · rintro (h | ⟨r, hr, hid⟩)
      · exact Or.inl h
      · refine Or.inr ⟨dd, rfl, r, (List.mem_filter.1 hr).1, ?_, hid⟩
        have := (List.mem_filter.1 hr).2
        simpa using this
    · rintro (h | ⟨dd2, hdd, r, hr, hold, hid⟩)
      · exact Or.inl h
      · cases hdd
        exact Or.inr ⟨r, List.mem_filter.2 ⟨hr, by simpa using hold⟩, hid⟩

theorem gcCandidates_mem (st : Store) (now : Int) (o : Option Nat) (kv : Option Int)
    (e d : Bool) (i : Int) :
    i ∈ (gcCandidates st now o kv e d).1 ↔
      ∃ r ∈ st, r.id = i ∧ gcMatches st now o kv e d r := by
  have hbase : i ∈ (gcAcc3 st now o e d).1 ↔
      ∃ r ∈ st, r.id = i ∧
        (((e || (!d && !e)) = true ∧ isExpiredRow now r = true) ∨
         ((d || (!d && !e)) = true ∧ isDeletedRow r = true) ∨
         (∃ dd, o = some dd ∧ r.created_at < now - (dd : Int) * 86400)) := by
    rw [mem_gcAcc3, mem_gcAcc2, mem_gcAcc1]
    constructor
    · rintro ((⟨hf, r, hr, hexp, hid⟩ | ⟨hf, r, hr, hdel, hid⟩) | ⟨dd, hdd, r, hr, hold, hid⟩)
      · exact ⟨r, hr, hid, Or.inl ⟨hf, hexp⟩⟩
      · exact ⟨r, hr, hid, Or.inr (Or.inl ⟨hf, hdel⟩)⟩
      · exact ⟨r, hr, hid, Or.inr (Or.inr ⟨dd, hdd, hold⟩)⟩
    · rintro ⟨r, hr, hid, (⟨hf, hexp⟩ | ⟨hf, hdel⟩ | ⟨dd, hdd, hold⟩)⟩
      · exact Or.inl (Or.inl ⟨hf, r, hr, hexp, hid⟩)
      · exact Or.inl (Or.inr ⟨hf, r, hr, hdel, hid⟩)
      · exact Or.inr ⟨dd, hdd, r, hr, hold, hid⟩
  cases kv with
  | none =>
    show i ∈ (gcAcc3 st now o e d).1 ↔ _
    rw [hbase]
    unfold gcMatches
    constructor
    · rintro ⟨r, hr, hid, hm⟩
      refine ⟨r, hr, hid, ?_⟩
      rcases hm with h | h | h
      · exact Or.inl h
      · exact Or.inr (Or.inl h)
      · exact Or.inr (Or.inr (Or.inl h))
    · rintro ⟨r, hr, hid, (h | h | h | ⟨kp, hkp, -⟩)⟩
      · exact ⟨r, hr, hid, Or.inl h⟩
      · exact ⟨r, hr, hid, Or.inr (Or.inl h)⟩
      · exact ⟨r, hr, hid, Or.inr (Or.inr h)⟩
      · exact Option.noConfusion hkp
  | some keep =>
    show i ∈ ((distinctKeyScopes st).foldl _ (gcAcc3 st now o e d)).1 ↔ _
    rw [mem_keepFold, hbase]
    unfold gcMatches
    constructor
    · rintro (⟨r, hr, hid, hm⟩ | ⟨p, hp, r, hr, hid⟩)
      · refine ⟨r, hr, hid, ?_⟩
        rcases hm with h | h | h
        · exact Or.inl h
        · exact Or.inr (Or.inl h)
        · exact Or.inr (Or.inr (Or.inl h))
      · have hsort : r ∈ sortByVersionDesc (seriesRows st p.1 p.2) :=
          List.mem_of_mem_drop hr
        have hser : r ∈ seriesRows st p.1 p.2 :=
          (List.Perm.mem_iff (List.perm_insertionSort versionDesc _)).1 hsort
        have hrst : r ∈ st := (List.mem_filter.1 hser).1
        have hmatch := (rowMatches_iff p.1 p.2 r).1 (List.mem_filter.1 hser).2
        have hpr : p = (r.key, r.scope) := by
          cases p
          simp only [Prod.mk.injEq]
          exact ⟨hmatch.1.symm, hmatch.2.symm⟩
        subst hpr
        exact ⟨r, hrst, hid, Or.inr (Or.inr (Or.inr ⟨keep, rfl, hr⟩))⟩
    · rintro ⟨r, hr, hid, (h | h | h | ⟨kp, hkp, hdrop⟩)⟩
      · exact Or.inl ⟨r, hr, hid, Or.inl h⟩
      · exact Or.inl ⟨r, hr, hid, Or.inr (Or.inl h)⟩
      · exact Or.inl ⟨r, hr, hid, Or.inr (Or.inr h)⟩
      · cases hkp
        refine Or.inr ⟨(r.key, r.scope), ?_, r, hdrop, hid⟩
        exact List.mem_dedup.2 (List.mem_map_of_mem _ hr)

theorem id_inj (st : Store) : (st.map Row.id).Nodup → ∀ x y : Row, x ∈ st → y ∈ st →
    x.id = y.id → x = y := by
  induction st with
  | nil =>
    intro _ x y hx
    cases hx
  | cons a t ih =>
    intro hid x y hx hy h
    rw [List.map_cons, List.nodup_cons] at hid
    rcases List.mem_cons.1 hx with rfl | hx2 <;> rcases List.mem_cons.1 hy with rfl | hy2
    · rfl
    · exact absurd (by rw [h]; exact List.mem_map_of_mem Row.id hy2) hid.1
    · exact absurd (by rw [← h]; exact List.mem_map_of_mem Row.id hx2) hid.1
    · exact ih hid.2 x y hx2 hy2 h

theorem bytesOf_nil (st : Store) : bytesOf st [] = 0 := by
  unfold bytesOf
  simp

theorem bytesOf_cons (a : Row) (t : Store) (ids : List Int) :
    bytesOf (a :: t) ids = (if a.id ∈ ids then a.size_bytes else 0) + bytesOf t ids := by
  unfold bytesOf
  rw [List.filter_cons]
  by_cases h : a.id ∈ ids
  · simp [h]
  · simp [h]

theorem bytesOf_irrelevant (t : Store) (ids : List Int) (j : Int)
    (hj : ∀ y ∈ t, ¬ y.id = j) :
    bytesOf t (ids ++ [j]) = bytesOf t ids := by
  induction t with
  | nil => rfl
  | cons a u ih =>
    rw [bytesOf_cons, bytesOf_cons]
    have hne : ¬ j = a.id := fun hh => hj a (List.mem_cons_self a u) hh.symm
    have hmem : (a.id ∈ ids ++ [j]) ↔ a.id ∈ ids := by
      rw [mem_append_single_iff]
      exact ⟨fun hh => hh.elim id (fun hh2 => absurd hh2 hne), Or.inl⟩
    rw [ih (fun y hy => hj y (List.mem_cons_of_mem a hy))]
    by_cases h : a.id ∈ ids
    · rw [if_pos (hmem.2 h), if_pos h]
    · rw [if_neg (fun hh => h (hmem.1 hh)), if_neg h]

theorem bytesOf_append (r : Row) (ids : List Int) (hnot : r.id ∉ ids) :
    ∀ st : Store, (st.map Row.id).Nodup → r ∈ st →
      bytesOf st (ids ++ [r.id]) = bytesOf st ids + r.size_bytes := by
  intro st
  induction st with
  | nil =>
    intro _ hx
    cases hx
  | cons a t ih =>
    intro hid hmem
    rw [List.map_cons, List.nodup_cons] at hid
    rw [bytesOf_cons, bytesOf_cons]
    rcases List.mem_cons.1 hmem with rfl | hmem2
    · have h1 : r.id ∈ ids ++ [r.id] := mem_append_single_iff.2 (Or.inr rfl)
      have h2 : ∀ y ∈ t, ¬ y.id = r.id := fun y hy hh =>
        hid.1 (by rw [← hh]; exact List.mem_map_of_mem Row.id hy)
      rw [if_pos h1, if_neg hnot, bytesOf_irrelevant t ids r.id h2]
      omega
    · have hne : ¬ r.id = a.id := fun hh =>
        hid.1 (by rw [← hh]; exact List.mem_map_of_mem Row.id hmem2)
      have hmemiff : (a.id ∈ ids ++ [r.id]) ↔ a.id ∈ ids := by
        rw [mem_append_single_iff]
        exact ⟨fun hh => hh.elim id (fun hh2 => absurd hh2 hne), Or.inl⟩
      rw [ih hid.2 hmem2]
      by_cases h : a.id ∈ ids
      · rw [if_pos (hmemiff.2 h), if_pos h]
        omega
      · rw [if_neg (fun hh => h (hmemiff.1 hh)), if_neg h]
        omega

/-- Invariant carried by the gc accumulator: collected ids are distinct, each
is the id of a store row, and the byte tally equals the summed sizes of the
collected rows. -/
def accOk (st : Store) (acc : List Int × Int) : Prop :=
  acc.1.Nodup ∧ (∀ i ∈ acc.1, ∃ r ∈ st, r.id = i) ∧ acc.2 = bytesOf st acc.1

theorem accOk_push (st : Store) (hid : (st.map Row.id).Nodup) (acc : List Int × Int)
    (hacc : accOk st acc) (r : Row) (hr : r ∈ st) (hnot : r.id ∉ acc.1) :
    accOk st (acc.1 ++ [r.id], acc.2 + r.size_bytes) := by
  obtain ⟨hnd, hdom, hbytes⟩ := hacc
  refine ⟨?_, ?_, ?_⟩
  · rw [List.nodup_append]
    exact ⟨hnd, List.nodup_singleton r.id, by
      intro x hx hx2
      rw [List.mem_singleton.1 hx2] at hx
      exact hnot hx⟩
  · intro i hi
    rcases mem_append_single_iff.1 hi with h | h
    · exact hdom i h
    · exact ⟨r, hr, h⟩
  · rw [hbytes, bytesOf_append r acc.1 hnot st hid hr]

theorem pushNewList_accOk (st : Store) (hid : (st.map Row.id).Nodup) (l : List Row)
    (hl : ∀ r ∈ l, r ∈ st) :
    ∀ acc, accOk st acc → accOk st (pushNewList acc l) := by
  induction l with
  | nil =>
    intro acc hacc
    exact hacc
  | cons r t ih =>
    intro acc hacc
    simp only [pushNewList, List.foldl_cons] at ih ⊢
    by_cases hmem : r.id ∈ acc.1
    · rw [if_pos hmem]
      exact ih (fun x hx => hl x (List.mem_cons_of_mem r hx)) acc hacc
    · rw [if_neg hmem]
      exact ih (fun x hx => hl x (List.mem_cons_of_mem r hx)) _
        (accOk_push st hid acc hacc r (hl r (List.mem_cons_self r t)) hmem)

theorem keepScan_accOk (st : Store) (hid : (st.map Row.id).Nodup) (K : Nat)
    (rows : List Row) (hl : ∀ r ∈ rows, r ∈ st) :
    ∀ j acc, accOk st acc → accOk st (keepScan K j acc rows) := by
  induction rows with
  | nil =>
    intro j acc hacc
    exact hacc
  | cons r t ih =>
    intro j acc hacc
    simp only [keepScan]
    by_cases hc : K ≤ j ∧ r.id ∉ acc.1
    · rw [if_pos hc]
      exact ih (fun x hx => hl x (List.mem_cons_of_mem r hx)) (j + 1) _
        (accOk_push st hid acc hacc r (hl r (List.mem_cons_self r t)) hc.2)
    · rw [if_neg hc]
      exact ih (fun x hx => hl x (List.mem_cons_of_mem r hx)) (j + 1) acc hacc

theorem keepFold_accOk (st : Store) (hid : (st.map Row.id).Nodup) (K : Nat)
    (pairs : List (String × Option String)) :
    ∀ acc, accOk st acc →
      accOk st (pairs.foldl
        (fun a p => keepScan K 0 a (sortByVersionDesc (seriesRows st p.1 p.2))) acc) := by
  induction pairs with
  | nil =>
    intro acc hacc
    exact hacc
  | cons p t ih =>
    intro acc hacc
    simp only [List.foldl_cons]
    refine ih _ (keepScan_accOk st hid K _ ?_ 0 acc hacc)
    intro r hr
    have hser : r ∈ seriesRows st p.1 p.2 :=
      (List.Perm.mem_iff (List.perm_insertionSort versionDesc _)).1 hr
    exact (List.mem_filter.1 hser).1

theorem pushAll_eq (l : List Row) :
    ∀ acc, pushAll acc l = (acc.1 ++ l.map Row.id, acc.2 + (l.map Row.size_bytes).sum) := by
  induction l with
  | nil =>
    intro acc
    simp [pushAll]
  | cons r t ih =>
    intro acc
    simp only [pushAll, List.foldl_cons] at ih ⊢
    rw [ih]
    simp [List.append_assoc]
    omega

theorem accOk_gcAcc1 (st : Store) (now : Int) (e d : Bool)
    (hid : (st.map Row.id).Nodup) : accOk st (gcAcc1 st now e d) := by
  unfold gcAcc1
  by_cases hf : (e || (!d && !e)) = true
  · rw [if_pos hf, pushAll_eq]
    simp only [List.nil_append, Int.zero_add]
    refine ⟨?_, ?_, ?_⟩
    · exact ((List.filter_sublist st).map Row.id).nodup hid
    · intro i hi
      obtain ⟨r, hr, hri⟩ := List.mem_map.1 hi
      exact ⟨r, (List.mem_filter.1 hr).1, hri⟩
    · show (List.map Row.size_bytes (st.filter (isExpiredRow now))).sum =
        bytesOf st ((st.filter (isExpiredRow now)).map Row.id)
      unfold bytesOf
      have hfe : st.filter
          (fun r => decide (r.id ∈ (st.filter (isExpiredRow now)).map Row.id)) =
          st.filter (isExpiredRow now) := by
        apply List.filter_congr
        intro r hr
        have hiff : (r.id ∈ (st.filter (isExpiredRow now)).map Row.id) ↔
            isExpiredRow now r = true := by
          constructor
          · intro hmem
            obtain ⟨y, hy, hyid⟩ := List.mem_map.1 hmem
            have hyr : y = r := id_inj st hid y r (List.mem_of_mem_filter hy) hr hyid
            rw [← hyr]
            exact (List.mem_filter.1 hy).2
          · intro hexp
            exact List.mem_map_of_mem Row.id (List.mem_filter.2 ⟨hr, hexp⟩)
        cases hex : isExpiredRow now r
        · simp [hiff, hex]
        · simp [hiff, hex]
      rw [hfe]
  · rw [if_neg hf]
    exact ⟨List.nodup_nil, fun i hi => absurd hi (List.not_mem_nil i), (bytesOf_nil st).symm⟩

theorem accOk_gcCandidates (st : Store) (now : Int) (o : Option Nat) (kv : Option Int)
    (e d : Bool) (hid : (st.map Row.id).Nodup) :
    accOk st (gcCandidates st now o kv e d) := by
  have h1 := accOk_gcAcc1 st now e d hid
  have h2 : accOk st (gcAcc2 st now e d) := by
    unfold gcAcc2
    by_cases hf : (d || (!d && !e)) = true
    · rw [if_pos hf]
      exact pushNewList_accOk st hid _ (fun r hr => List.mem_of_mem_filter hr) _ h1
    · rw [if_neg hf]
      exact h1
  have h3 : accOk st (gcAcc3 st now o e d) := by
    cases o with
    | none => exact h2
    | some dd =>
      exact pushNewList_accOk st hid _ (fun r hr => List.mem_of_mem_filter hr) _ h2
  unfold gcCandidates
  cases kv with
  | none => exact h3
  | some keep => exact keepFold_accOk st hid (i64ToUsize keep) _ _ h3

theorem gc_true_store (st : Store) (now : Int) (o : Option Nat) (kv : Option Int)
    (e d : Bool) :
    (gc st now true o kv e d).1 =
      st.filter (fun r => decide (r.id ∉ (gcCandidates st now o kv e d).1)) := by
  unfold gc
  simp only [Bool.true_and]
  by_cases hemp : (gcCandidates st now o kv e d).1.isEmpty
  · rw [if_neg (by simp [hemp])]
    have hnil : (gcCandidates st now o kv e d).1 = [] := List.isEmpty_iff.1 hemp
    rw [hnil]
    simp
  · rw [if_pos (by simp [hemp]), gcDeleteLoop_eq_filter]

theorem drop_rank_ge : ∀ l : List Row, List.Sorted versionDesc l →
    (l.map Row.version).Nodup → ∀ K : Nat, ∀ r ∈ l.drop K, K ≤ countLarger l r := by
  intro l
  induction l with
  | nil =>
    intro _ _ K r hr
    rw [List.drop_nil] at hr
    cases hr
  | cons a t ih =>
    intro hs hnv K r hr
    rw [List.sorted_cons] at hs
    rw [List.map_cons, List.nodup_cons] at hnv
    cases K with
    | zero => exact Nat.zero_le _
    | succ K2 =>
      rw [List.drop_succ_cons] at hr
      have hrt : r ∈ t := List.mem_of_mem_drop hr
      have hlt : r.version < a.version := by
        have hle : r.version ≤ a.version := hs.1 r hrt
        have hne : r.version ≠ a.version := fun hh =>
          hnv.1 (by rw [← hh]; exact List.mem_map_of_mem Row.version hrt)
        exact lt_of_le_of_ne hle hne
      have ih2 := ih hs.2 hnv.2 K2 r hr
      unfold countLarger at ih2 ⊢
      rw [List.filter_cons_of_pos (by simpa using hlt)]
      simp only [List.length_cons]
      omega

theorem take_rank_lt : ∀ l : List Row, List.Sorted versionDesc l →
    ∀ K : Nat, ∀ r ∈ l.take K, countLarger l r < K := by
  intro l
  induction l with
  | nil =>
    intro _ K r hr
    rw [List.take_nil] at hr
    cases hr
  | cons a t ih =>
    intro hs K r hr
    rw [List.sorted_cons] at hs
    cases K with
    | zero =>
      rw [List.take_zero] at hr
      cases hr
    | succ K2 =>
      rw [List.take_succ_cons] at hr
      unfold countLarger
      rcases List.mem_cons.1 hr with rfl | hr2
      · have hz : ((r :: t).filter (fun x => decide (r.version < x.version))).length = 0 := by
          rw [List.length_eq_zero, List.filter_eq_nil_iff]
          intro x hx
          rcases List.mem_cons.1 hx with rfl | hx2
          · simp
          · have := hs.1 x hx2
            simp only [decide_eq_true_eq]
            unfold versionDesc at this
            omega
        rw [hz]
        exact Nat.succ_pos K2
      · have ihr := ih hs.2 K2 r hr2
        unfold countLarger at ihr
        by_cases hc : r.version < a.version
        · rw [List.filter_cons_of_pos (by simpa using hc)]
          simp only [List.length_cons]
          omega
        · rw [List.filter_cons_of_neg (by simpa using hc)]
          omega

theorem mem_drop_iff_rank (l : List Row) (hs : List.Sorted versionDesc l)
    (hnv : (l.map Row.version).Nodup) (K : Nat) (r : Row) (hr : r ∈ l) :
    r ∈ l.drop K ↔ K ≤ countLarger l r := by
  constructor
  · exact drop_rank_ge l hs hnv K r
  · intro hK
    by_contra hnot
    have hrt : r ∈ l.take K := by
      rcases List.mem_append.1 (by rw [List.take_append_drop K l]; exact hr) with h | h
      · exact h
      · exact absurd h hnot
    have := take_rank_lt l hs K r hrt
    omega

theorem countLarger_perm {l l2 : List Row} (h : l.Perm l2) (r : Row) :
    countLarger l r = countLarger l2 r := by
  unfold countLarger
  exact (h.filter _).length_eq

theorem filter_mem_drop (l : List Row) (hl : l.Nodup) (K : Nat) :
    l.filter (fun x => decide (x ∈ l.drop K)) = l.drop K := by
  have h1 : (l.take K).filter (fun x => decide (x ∈ l.drop K)) = [] := by
    rw [List.filter_eq_nil_iff]
    intro x hx hmem
    exact (List.disjoint_take_drop hl le_rfl) hx (by simpa using hmem)
  have h2 : (l.drop K).filter (fun x => decide (x ∈ l.drop K)) = l.drop K :=
    List.filter_eq_self.2 (fun x hx => by simpa using hx)
  calc l.filter (fun x => decide (x ∈ l.drop K))
      = (l.take K ++ l.drop K).filter (fun x => decide (x ∈ l.drop K)) := by
        rw [List.take_append_drop]
    _ = l.drop K := by rw [List.filter_append, h1, h2, List.nil_append]

theorem filter_not_mem_drop (l : List Row) (hl : l.Nodup) (K : Nat) :
    l.filter (fun x => decide (x ∉ l.drop K)) = l.take K := by
  have h1 : (l.take K).filter (fun x => decide (x ∉ l.drop K)) = l.take K :=
    List.filter_eq_self.2 (fun x hx => by
      simpa using (List.disjoint_take_drop hl le_rfl) hx)
  have h2 : (l.drop K).filter (fun x => decide (x ∉ l.drop K)) = [] := by
    rw [List.filter_eq_nil_iff]
    intro x hx hmem
    exact (by simpa using hmem : x ∉ l.drop K) hx
  calc l.filter (fun x => decide (x ∉ l.drop K))
      = (l.take K ++ l.drop K).filter (fun x => decide (x ∉ l.drop K)) := by
        rw [List.take_append_drop]
    _ = l.take K := by rw [List.filter_append, h1, h2, List.append_nil]

/-- C5: the gc candidate set is a deduplicated union across all active
filters: the collected ids are distinct, the reported byte total counts each
matched row's `size_bytes` exactly once, membership is exactly the union of
the active filter predicates, and when both boolean flags are false the
expired and soft-deleted rows are always candidates — even when
`olderThanDays` or `keepVersions` is the only filter supplied. -/
theorem gc_candidates_are_dedup_union (st : Store) (now : Int) (o : Option Nat)
    (kv : Option Int) (e d : Bool) (hid : (st.map Row.id).Nodup) :
    (gcCandidates st now o kv e d).1.Nodup ∧
    (gcCandidates st now o kv e d).2 =
      ((st.filter (fun r =>
          decide (r.id ∈ (gcCandidates st now o kv e d).1))).map Row.size_bytes).sum ∧
    (∀ i, i ∈ (gcCandidates st now o kv e d).1 ↔
        ∃ r ∈ st, r.id = i ∧ gcMatches st now o kv e d r) ∧
    (e = false → d = false → ∀ r ∈ st, (isExpiredRow now r || isDeletedRow r) = true →
        r.id ∈ (gcCandidates st now o kv e d).1) := by
  obtain ⟨hnd, _, hbytes⟩ := accOk_gcCandidates st now o kv e d hid
  refine ⟨hnd, hbytes, fun i => gcCandidates_mem st now o kv e d i, ?_⟩
  intro he hd r hr hmatch
  subst he
  subst hd
  apply (gcCandidates_mem st now o kv false false r.id).2
  refine ⟨r, hr, rfl, ?_⟩
  unfold gcMatches
  cases hex : isExpiredRow now r with
  | true => exact Or.inl ⟨rfl, rfl⟩
  | false =>
    rw [hex] at hmatch
    exact Or.inr (Or.inl ⟨rfl, by simpa using hmatch⟩)

theorem gc_candidates_are_dedup_union_witness :
    (gcCandidates [rowED] 10 none none false false).2 =
      ((([rowED] : Store).filter (fun r =>
          decide (r.id ∈ (gcCandidates [rowED] 10 none none false false).1))).map
        Row.size_bytes).sum :=
  (gc_candidates_are_dedup_union [rowED] 10 none none false false (by decide)).2.1

/-- C7: gc with `run = false` leaves the store — and hence every later `get`
and `list_keys` result — exactly as it was; gc with `run = true` removes
precisely the rows of the reported candidate set and no others, and reports
the same entry count and byte total as the corresponding dry run. -/
theorem gc_dry_run_frame (st : Store) (now : Int) (o : Option Nat) (kv : Option Int)
    (e d : Bool) :
    (gc st now false o kv e d).1 = st ∧
    (∀ k2 ver s2 now2, get (gc st now false o kv e d).1 k2 ver s2 now2 =
        get st k2 ver s2 now2) ∧
    (∀ now2 limit, list_keys_all (gc st now false o kv e d).1 now2 limit =
        list_keys_all st now2 limit) ∧
    (∀ now2 limit s2, list_keys_scoped (gc st now false o kv e d).1 now2 limit s2 =
        list_keys_scoped st now2 limit s2) ∧
    (gc st now true o kv e d).1 =
      st.filter (fun r => decide (r.id ∉ (gcCandidates st now o kv e d).1)) ∧
    (gc st now true o kv e d).2.entries_count =
      (gc st now false o kv e d).2.entries_count ∧
    (gc st now true o kv e d).2.bytes_freed = (gc st now false o kv e d).2.bytes_freed := by
  have hfalse : (gc st now false o kv e d).1 = st := by
    unfold gc
    simp
  exact ⟨hfalse, fun k2 ver s2 now2 => by rw [hfalse], fun now2 limit => by rw [hfalse],
    fun now2 limit s2 => by rw [hfalse], gc_true_store st now o kv e d, rfl, rfl⟩

/-- C6 (amended): provided every row of the (key, scope) series is live and
non-expired and no olderThanDays filter is supplied, gc with keepVersions = K
on a series of V > K rows marks exactly V − K of its rows as candidates, and
running it leaves exactly K rows of the series — precisely those with fewer
than K strictly larger versions, i.e. the K highest version numbers.  (When
some series rows are soft-deleted or expired, the implicit expired+deleted
sweep, which runs whenever at most one boolean flag is set, reclaims them
too, so top-K rows do not survive regardless of deletion/expiry state.) -/
theorem gc_keep_versions_amended (st : Store) (k : String) (s : Option String)
    (K : Nat) (now : Int) (e d : Bool)
    (hid : (st.map Row.id).Nodup)
    (hver : ((seriesRows st k s).map Row.version).Nodup)
    (hlive : ∀ r ∈ seriesRows st k s, r.deleted_at = none)
    (hexp : ∀ r ∈ seriesRows st k s, isExpiredRow now r = false)
    (hK : (K : Int) < 2 ^ 64)
    (hVK : K < (seriesRows st k s).length) :
    ((seriesRows st k s).filter (fun r =>
        decide (r.id ∈ (gcCandidates st now none (some (K : Int)) e d).1))).length =
      (seriesRows st k s).length - K ∧
    ((gc st now true none (some (K : Int)) e d).1.filter (rowMatches k s)).length = K ∧
    (∀ r ∈ seriesRows st k s,
        (r ∈ (gc st now true none (some (K : Int)) e d).1 ↔
          countLarger (seriesRows st k s) r < K)) := by
  have hKcast : i64ToUsize ((K : Nat) : Int) = K := by
    unfold i64ToUsize
    rw [Int.emod_eq_of_lt (Int.natCast_nonneg K) hK]
    exact Int.toNat_natCast K
  have hperm : (sortByVersionDesc (seriesRows st k s)).Perm (seriesRows st k s) :=
    List.perm_insertionSort versionDesc _
  have hsorted : List.Sorted versionDesc (sortByVersionDesc (seriesRows st k s)) :=
    List.sorted_insertionSort versionDesc _
  have hnvSorted : ((sortByVersionDesc (seriesRows st k s)).map Row.version).Nodup :=
    ((hperm.map Row.version).nodup_iff).2 hver
  have hndS : (seriesRows st k s).Nodup :=
    (((List.filter_sublist st).map Row.id).nodup hid).of_map
  have hndSorted : (sortByVersionDesc (seriesRows st k s)).Nodup := hperm.nodup_iff.2 hndS
  have hserEq : ∀ r ∈ seriesRows st k s, seriesRows st r.key r.scope = seriesRows st k s := by
    intro r hr
    have hm := (rowMatches_iff k s r).1 (List.mem_filter.1 hr).2
    rw [hm.1, hm.2]
  have hmemids : ∀ r ∈ seriesRows st k s,
      (r.id ∈ (gcCandidates st now none (some (K : Int)) e d).1 ↔
        r ∈ (sortByVersionDesc (seriesRows st k s)).drop K) := by
    intro r hrS
    have hrst : r ∈ st := (List.mem_filter.1 hrS).1
    rw [gcCandidates_mem]
    constructor
    · rintro ⟨x, hxst, hxid, hm⟩
      have hxr : x = r := id_inj st hid x r hxst hrst hxid
      subst hxr
      rcases hm with ⟨-, hex⟩ | ⟨-, hdel⟩ | ⟨dd, hdd, -⟩ | ⟨kp, hkp, hdrop⟩
      · rw [hexp x hrS] at hex
        exact Bool.noConfusion hex
      · unfold isDeletedRow at hdel
        rw [hlive x hrS] at hdel
        simp at hdel
      · exact Option.noConfusion hdd
      · cases hkp
        rw [hKcast, hserEq x hrS] at hdrop
        exact hdrop
    · intro hdrop
      refine ⟨r, hrst, rfl, Or.inr (Or.inr (Or.inr ⟨(K : Int), rfl, ?_⟩))⟩
      rw [hKcast, hserEq r hrS]
      exact hdrop
  have hc1 : ((seriesRows st k s).filter (fun r =>
      decide (r.id ∈ (gcCandidates st now none (some (K : Int)) e d).1))).length =
      (seriesRows st k s).length - K := by
    have h1 : ((seriesRows st k s).filter (fun r =>
        decide (r.id ∈ (gcCandidates st now none (some (K : Int)) e d).1))).length =
        ((sortByVersionDesc (seriesRows st k s)).filter (fun r =>
          decide (r.id ∈ (gcCandidates st now none (some (K : Int)) e d).1))).length :=
      (hperm.symm.filter _).length_eq
    have h2 : (sortByVersionDesc (seriesRows st k s)).filter (fun r =>
        decide (r.id ∈ (gcCandidates st now none (some (K : Int)) e d).1)) =
        (sortByVersionDesc (seriesRows st k s)).filter (fun r =>
          decide (r ∈ (sortByVersionDesc (seriesRows st k s)).drop K)) := by
      apply List.filter_congr
      intro r hrSorted
      simp only [decide_eq_decide]
      exact hmemids r (hperm.mem_iff.1 hrSorted)
    rw [h1, h2, filter_mem_drop _ hndSorted K, List.length_drop, hperm.length_eq]
  have hsurv : (gc st now true none (some (K : Int)) e d).1.filter (rowMatches k s) =
      (seriesRows st k s).filter (fun r =>
        decide (r.id ∉ (gcCandidates st now none (some (K : Int)) e d).1)) := by
    rw [gc_true_store, List.filter_filter]
    unfold seriesRows
    rw [List.filter_filter]
    apply List.filter_congr
    intro r _
    rw [Bool.and_comm]
  refine ⟨hc1, ?_, ?_⟩
  · rw [hsurv]
    have h1 : ((seriesRows st k s).filter (fun r =>
        decide (r.id ∉ (gcCandidates st now none (some (K : Int)) e d).1))).length =
        ((sortByVersionDesc (seriesRows st k s)).filter (fun r =>
          decide (r.id ∉ (gcCandidates st now none (some (K : Int)) e d).1))).length :=
      (hperm.symm.filter _).length_eq
    have h2 : (sortByVersionDesc (seriesRows st k s)).filter (fun r =>
        decide (r.id ∉ (gcCandidates st now none (some (K : Int)) e d).1)) =
        (sortByVersionDesc (seriesRows st k s)).filter (fun r =>
          decide (r ∉ (sortByVersionDesc (seriesRows st k s)).drop K)) := by
      apply List.filter_congr
      intro r hrSorted
      simp only [decide_eq_decide]
      exact not_congr (hmemids r (hperm.mem_iff.1 hrSorted))
    rw [h1, h2, filter_not_mem_drop _ hndSorted K, List.length_take, hperm.length_eq]
    exact Nat.min_eq_left (le_of_lt hVK)
  · intro r hrS
    have hrst : r ∈ st := (List.mem_filter.1 hrS).1
    have hrSorted : r ∈ sortByVersionDesc (seriesRows st k s) := hperm.mem_iff.2 hrS
    rw [gc_true_store]
    constructor
    · intro hmem
      have hnotin : r.id ∉ (gcCandidates st now none (some (K : Int)) e d).1 := by
        have := (List.mem_filter.1 hmem).2
        simpa using this
      have hnotdrop : r ∉ (sortByVersionDesc (seriesRows st k s)).drop K :=
        fun hdrop => hnotin ((hmemids r hrS).2 hdrop)
      have hrank : ¬ K ≤ countLarger (sortByVersionDesc (seriesRows st k s)) r :=
        fun hle => hnotdrop
          ((mem_drop_iff_rank _ hsorted hnvSorted K r hrSorted).2 hle)
      rw [countLarger_perm hperm.symm r]
      omega
    · intro hrank
      have hnotdrop : r ∉ (sortByVersionDesc (seriesRows st k s)).drop K := by
        intro hdrop
        have := (mem_drop_iff_rank _ hsorted hnvSorted K r hrSorted).1 hdrop
        rw [countLarger_perm hperm r] at this
        omega
      exact List.mem_filter.2 ⟨hrst, by
        simpa using fun hin => hnotdrop ((hmemids r hrS).1 hin)⟩

theorem gc_keep_versions_amended_witness :
    (((seriesRows [rowK1, rowK2, rowK3] "k" none).filter (fun r =>
        decide (r.id ∈ (gcCandidates [rowK1, rowK2, rowK3] 10 none (some 1)
          false false).1))).length = 2) :=
  ((gc_keep_versions_amended [rowK1, rowK2, rowK3] "k" none 1 10 false false
    (by decide) (by decide) (by decide) (by decide) (by norm_num) (by decide)).1).trans rfl

/-- C6 counterexample: key "k" has V = 2 rows (version 2 soft-deleted,
version 1 live); gc with keepVersions = 1 and no boolean flag reclaims both
rows — the soft-deleted top version via the implicit deleted sweep and the
bottom version via the keep filter — so the count is 2 ≠ V − K = 1 and the
highest version does not survive. -/
theorem gc_keep_versions_counterexample :
    (seriesRows [rowK1, rowK2del] "k" none).length = 2 ∧
    (gc [rowK1, rowK2del] 10 true none (some 1) false false).2.entries_count = 2 ∧
    (gc [rowK1, rowK2del] 10 true none (some 1) false false).1.filter
      (rowMatches "k" none) = [] :=
  ⟨rfl, rfl, rfl⟩

/-- C4: starting from a state with a live row for (key, scope): a soft delete
leaves the key absent from versionless `get` and from both `list_keys`
variants, while `list_key_history` still returns every row of the series,
with `deleted_at` stamped on the previously-live ones; a hard delete removes
every row of the series, so `get` fails, the key is absent from `list_keys`,
and `list_key_history` itself fails with KeyNotFound. -/
theorem delete_views (st : Store) (k : String) (s : Option String) (now : Int)
    (h : existsLive st k s = true) :
    deleteKey st k false s now =
        .ok (softDeleteStore st k s now, (liveSeriesRows st k s).length) ∧
    (∀ now2, get (softDeleteStore st k s now) k none s now2 =
        .error (.KeyNotFound k)) ∧
    (∀ now2 limit x, x ∈ list_keys_all (softDeleteStore st k s now) now2 limit →
        ¬(x.key = k ∧ x.scope = s)) ∧
    (∀ now2 limit x, x ∈ list_keys_scoped (softDeleteStore st k s now) now2 limit s →
        x.key ≠ k) ∧
    list_key_history (softDeleteStore st k s now) k none s =
        .ok ((sortByVersionDesc (seriesRows st k s)).map (softMark k s now)) ∧
    deleteKey st k true s now = .ok (hardDeleteStore st k s, (seriesRows st k s).length) ∧
    seriesRows (hardDeleteStore st k s) k s = [] ∧
    (∀ now2, get (hardDeleteStore st k s) k none s now2 = .error (.KeyNotFound k)) ∧
    (∀ now2 v, get (hardDeleteStore st k s) k (some v) s now2 =
        .error (.VersionNotFound k v)) ∧
    (∀ now2 limit x, x ∈ list_keys_all (hardDeleteStore st k s) now2 limit →
        ¬(x.key = k ∧ x.scope = s)) ∧
    list_key_history (hardDeleteStore st k s) k none s = .error (.KeyNotFound k) := by
  refine ⟨?_, ?_, ?_, ?_, ?_, ?_, ?_, ?_, ?_, ?_, ?_⟩
  · simp [deleteKey, h]
  · exact fun now2 => get_none_softDeleteStore st k s now now2
  · rintro now2 limit x hx ⟨hk, hs⟩
    obtain ⟨r, hrv, hrk, hrs⟩ := mem_list_keys_all _ now2 limit x hx
    have hfalse := visible_softDeleteStore_no_match st k s now now2 r hrv
    have htrue : rowMatches k s r = true :=
      (rowMatches_iff k s r).2 ⟨hrk.trans hk, hrs.trans hs⟩
    rw [htrue] at hfalse
    exact Bool.noConfusion hfalse
  · intro now2 limit x hx hk
    obtain ⟨r, hrv, hrs, hrk⟩ := mem_list_keys_scoped _ now2 limit s x hx
    have hfalse := visible_softDeleteStore_no_match st k s now now2 r hrv
    have htrue : rowMatches k s r = true :=
      (rowMatches_iff k s r).2 ⟨hrk.trans hk, hrs⟩
    rw [htrue] at hfalse
    exact Bool.noConfusion hfalse
  · exact list_key_history_softDeleteStore st k s now h
  · simp [deleteKey, h]
  · exact seriesRows_hardDeleteStore st k s
  · intro now2
    simp [get, resolveEntry, get_latest_hardDeleteStore]
  · intro now2 v
    simp [get, resolveEntry, get_version_hardDeleteStore]
  · rintro now2 limit x hx ⟨hk, hs⟩
    obtain ⟨r, hrv, hrk, hrs⟩ := mem_list_keys_all _ now2 limit x hx
    have hr2 : r ∈ hardDeleteStore st k s := List.mem_of_mem_filter hrv
    have hfalse := mem_hardDeleteStore_no_match st k s r hr2
    have htrue : rowMatches k s r = true :=
      (rowMatches_iff k s r).2 ⟨hrk.trans hk, hrs.trans hs⟩
    rw [htrue] at hfalse
    exact Bool.noConfusion hfalse
  · exact list_key_history_hardDeleteStore st k s

theorem delete_views_witness :
    get (softDeleteStore [rowA1] "a" none 9) "a" none none 10 =
      .error (.KeyNotFound "a") :=
  ((delete_views [rowA1] "a" none 9 (by decide)).2.1) 10

theorem dedup_length_map_inj {α β : Type*} [DecidableEq α] [DecidableEq β]
    (f : α → β) (l : List α)
    (hinj : ∀ p ∈ l, ∀ q ∈ l, f p = f q → p = q) :
    ((l.map f).dedup).length = l.dedup.length := by
  induction l with
  | nil => rfl
  | cons a t ih =>
    have hinj2 : ∀ p ∈ t, ∀ q ∈ t, f p = f q → p = q := fun p hp q hq =>
      hinj p (List.mem_cons_of_mem a hp) q (List.mem_cons_of_mem a hq)
    by_cases ha : a ∈ t
    · have hfa : f a ∈ t.map f := List.mem_map_of_mem f ha
      rw [List.map_cons, List.dedup_cons_of_mem hfa, List.dedup_cons_of_mem ha]
      exact ih hinj2
    · have hfa : f a ∉ t.map f := by
        intro hmem
        obtain ⟨b, hb, hfb⟩ := List.mem_map.1 hmem
        have hba : b = a :=
          hinj b (List.mem_cons_of_mem a hb) a (List.mem_cons_self a t) hfb
        exact ha (hba ▸ hb)
      rw [List.map_cons, List.dedup_cons_of_not_mem hfa, List.dedup_cons_of_not_mem ha]
      simp [ih hinj2]

/-- C9 (amended): the stats active-key figure is the number of distinct
strings `key ++ (scope or "")` among live, non-expired rows; it equals the
number of distinct live (key, scope) pairs exactly when that concatenation is
injective on the pairs present — the SQL `COUNT(DISTINCT key || COALESCE(scope, ''))`
merges distinct pairs whose concatenations collide (one key a prefix of
another, or an empty-string scope versus a global one). -/
theorem activeKeys_eq_distinct_pairs (st : Store) (now : Int)
    (hinj : ∀ p ∈ (visibleRows st now).map (fun r => (r.key, r.scope)),
        ∀ q ∈ (visibleRows st now).map (fun r => (r.key, r.scope)),
        p.1 ++ p.2.getD "" = q.1 ++ q.2.getD "" → p = q) :
    activeKeys st now =
      ((visibleRows st now).map (fun r => (r.key, r.scope))).dedup.length := by
  unfold activeKeys
  have hmm : (visibleRows st now).map (fun r => r.key ++ r.scope.getD "") =
      ((visibleRows st now).map (fun r => (r.key, r.scope))).map
        (fun p => p.1 ++ p.2.getD "") := by
    rw [List.map_map]
    rfl
  rw [hmm]
  exact dedup_length_map_inj _ _ hinj

theorem activeKeys_eq_distinct_pairs_witness :
    activeKeys [rowA1] 0 = 1 :=
  (activeKeys_eq_distinct_pairs [rowA1] 0 (by decide)).trans rfl

/-- C9 counterexample: the store holding a live row for key "ab" in the
global scope and a live row for key "a" in scope "b" has two distinct live
(key, scope) pairs, yet the stats aggregator reports 1 active key, because
both concatenate to the string "ab". -/
theorem activeKeys_concat_counterexample :
    activeKeys [rowAB, rowAscopeB] 0 = 1 ∧
    ((visibleRows [rowAB, rowAscopeB] 0).map (fun r => (r.key, r.scope))).dedup.length = 2 :=
  ⟨rfl, rfl⟩

/-- C8: the scope deriver is a pure function of the path and the
canonicalization oracle: equal canonical paths give identical identifiers;
the identifier is always exactly 12 characters, each a lower-case hex digit,
obtained by truncating the SHA-256 digest of the canonical path's bytes to 6
bytes; and when canonicalization fails the given path is hashed as-is. -/
theorem hash_path_spec (canon : List Nat → Option (List Nat)) (p q : List Nat) :
    ((canon p).getD p = (canon q).getD q → hash_path canon p = hash_path canon q) ∧
    (hash_path canon p).length = 12 ∧
    (∀ c ∈ (hash_path canon p).data, c ∈ HEX_CHARS) ∧
    (canon p = none → hash_path canon p = hexEncode ((sha256 p).take 6)) := by
  refine ⟨?_, ?_, ?_, ?_⟩
  · intro h
    unfold hash_path
    rw [h]
  · unfold hash_path
    rw [hexEncode_length, List.length_take, sha256_length]
    rfl
  · intro c hc
    exact mem_hexEncode _ c hc
  · intro h
    unfold hash_path
    rw [h]
    rfl

theorem hash_path_spec_witness :
    hash_path (fun _ => none) ([97, 98, 99] : List Nat) =
      hexEncode ((sha256 [97, 98, 99]).take 6) :=
  (hash_path_spec (fun _ => none) [97, 98, 99] []).2.2.2 rfl

/-- C1: when `put` actually writes (the dedup early return is not taken), the
assigned version is `MAX(version)` over all rows of the (key, scope) series
(soft-deleted and expired included) plus 1; it is 1 when no row at all exists
for the series; the write is reported as `written = true`; and the version the
next write would be assigned is exactly one more, so successive distinct-value
writes are assigned 1, 2, 3, ... with no gaps. -/
theorem set_version_is_max_plus_one (st : Store) (k : String) (s : Option String)
    (v : List Nat) (ct fn : Option String) (exp : Option Int) (now newId : Int)
    (h : skipsWrite st k s v = false) :
    (set st k v ct fn s exp now newId).2.1 =
        (sqlMax ((seriesRows st k s).map Row.version)).getD 0 + 1 ∧
    (set st k v ct fn s exp now newId).2.2 = true ∧
    (seriesRows st k s = [] → (set st k v ct fn s exp now newId).2.1 = 1) ∧
    next_version (set st k v ct fn s exp now newId).1 k s =
        (set st k v ct fn s exp now newId).2.1 + 1 := by
  rw [set_insert_of_not_skips st k v ct fn s exp now newId h]
  refine ⟨rfl, rfl, ?_, ?_⟩
  · intro he
    simp [next_version, he, sqlMax]
  · exact next_version_append st k s _ (rowMatches_newRow k s v ct fn exp now newId _) rfl

theorem set_version_is_max_plus_one_witness :
    (set [rowA1] "a" [2] none none none none 5 2).2.1 = 2 :=
  ((set_version_is_max_plus_one [rowA1] "a" none [2] none none none 5 2
      (by decide)).1).trans (by decide)

/-- C2: `put` skips the write (reporting `written = false`) exactly when a
live latest entry exists whose value bytes equal the new value; in that case
it returns that entry's version unchanged and inserts nothing; in every other
case it appends a freshly versioned row and reports `written = true`. -/
theorem set_dedup_spec (st : Store) (k : String) (v : List Nat)
    (ct fn : Option String) (s : Option String) (exp : Option Int) (now newId : Int) :
    ((set st k v ct fn s exp now newId).2.2 = false ↔
       ∃ e, get_latest st k s = some e ∧ e.value = v) ∧
    (∀ e, get_latest st k s = some e → e.value = v →
       set st k v ct fn s exp now newId = (st, e.version, false)) ∧
    (skipsWrite st k s v = false →
       set st k v ct fn s exp now newId =
         (st ++ [newRow k v ct fn s exp now newId (next_version st k s)],
          next_version st k s, true)) := by
  refine ⟨?_, ?_, set_insert_of_not_skips st k v ct fn s exp now newId⟩
  · cases hgl : get_latest st k s with
    | none => simp [set, hgl]
    | some e =>
      by_cases hv : e.value = v
      · simp only [set, hgl, hv, if_true]
        simp [hv]
      · simp only [set, hgl, hv, if_false]
        simp [hv]
  · intro e hgl hv
    simp [set, hgl, hv]

theorem set_dedup_spec_witness :
    set [rowA1] "a" [1] none none none none 7 2 = ([rowA1], 1, false) :=
  (set_dedup_spec [rowA1] "a" [1] none none none none 7 2).2.1 rowA1 rfl rfl

/-- C10: when `put` takes the dedup early return, the store is left entirely
unchanged — in particular a different `expires_at`, `content_type` or
`original_filename` passed to the call is discarded — and every later read
sees exactly the pre-call state. -/
theorem set_skip_is_noop (st : Store) (k : String) (v : List Nat)
    (ct fn : Option String) (s : Option String) (exp : Option Int) (now newId : Int)
    (e : Row) (h1 : get_latest st k s = some e) (h2 : e.value = v) :
    (set st k v ct fn s exp now newId).1 = st ∧
    (set st k v ct fn s exp now newId).2 = (e.version, false) ∧
    ∀ ver now2, get (set st k v ct fn s exp now newId).1 k ver s now2 =
      get st k ver s now2 := by
  simp [set, h1, h2]

theorem set_skip_is_noop_witness :
    (set [rowA1] "a" [1] (some "text") (some "f.txt") none (some 99) 7 2).1 = [rowA1] :=
  (set_skip_is_noop [rowA1] "a" [1] (some "text") (some "f.txt") none (some 99) 7 2
    rowA1 rfl rfl).1

/-- C3 (amended): if the row resolved by `get` — by explicit version or as
the latest live row — carries an `expires_at` strictly before the current
time, `get` fails with KeyNotFound, even though the row physically exists.
(The source compares with strict `<`, so a row expiring exactly now is still
returned; the claim's "at or before" fails at that boundary.) -/
theorem get_masks_expired (st : Store) (k : String) (ver : Option Int)
    (s : Option String) (now : Int) (e : Row) (t : Int)
    (h1 : resolveEntry st k ver s = some e) (h2 : e.expires_at = some t)
    (h3 : t < now) :
    get st k ver s now = .error (.KeyNotFound k) := by
  unfold get
  rw [h1]
  simp [h2, h3]

theorem get_masks_expired_witness :
    get [rowExp] "k" (some 1) none 101 = .error (.KeyNotFound "k") :=
  get_masks_expired [rowExp] "k" (some 1) none 101 rowExp 100 rfl rfl (by decide)

/-- C3 counterexample: a row fetched by explicit version whose `expires_at`
equals the current time ("at or before" it) is returned successfully by
`get`, not masked as KeyNotFound as the claim states. -/
theorem get_expiry_boundary_counterexample :
    rowExp.expires_at = some 100 ∧ (100 : Int) ≤ 100 ∧
    get [rowExp] "k" (some 1) none 100 = .ok rowExp :=
  ⟨rfl, le_refl 100, rfl⟩

end Kv


